/-
Verification of the pipeline execution core of TESLib/TI-Toolbox
(src/GUI/pipeline_tab.py) against its natural-language specification.

The Python source is shallowly embedded: dictionaries become association
lists (Python dicts iterate in insertion order), Python sets become lists
used only through membership, Qt signal emissions become elements of an
event trace, and the unbounded recursion of the depth-first traversal in
`_build_execution_order` becomes a fuel-indexed recursion; the definitions
below use the fuel `blocks.length + 1`, which is shown to be enough for
the traversal ever to be truncated (the recursion of the source marks a
node visited before recursing, so its depth is bounded by the block
count).
-/
import Mathlib

namespace TIToolbox

/-- A connection record, as built by `PipelineTab.on_connection_created`:
`{'source_id': ..., 'target_id': ..., 'source_port': 'default',
'target_port': 'default'}`. -/
structure Conn where
  source_id : String
  target_id : String
  source_port : String := "default"
  target_port : String := "default"
  deriving Repr, DecidableEq

/-- A parameter value.  Python stores heterogeneous values (strings,
booleans, numbers, lists); floating point literals are carried as their
source text, since no code under verification computes with them. -/
inductive ParamV where
  | s (v : String)
  | b (v : Bool)
  | i (v : Int)
  | fl (lit : String)
  | slist (v : List String)
  | ilist (v : List Int)
  deriving Repr, DecidableEq

/-- A block record of `current_pipeline['blocks']`, as built by
`PipelineTab.add_block` / `add_block_to_pipeline`: keys `block_id`,
`block_type`, `name`, `parameters`, `position`, and (from `add_block`)
`status`.  `status` is an `Option` because `add_block_to_pipeline` omits
the key and readers use `.get('status', 'pending')`. -/
structure BlockData where
  block_id : String
  block_type : String
  name : String
  parameters : List (String × ParamV) := []
  position : Int × Int := (0, 0)
  status : Option String := some "pending"
  deriving Repr, DecidableEq

/-! ## Dependency Resolver: `PipelineExecutionThread._build_execution_order`

The source first builds `dependencies = {block_id: [] for block_id in
blocks}` and, for each connection, executes
`if target_id not in dependencies[source_id]:
dependencies[target_id].append(source_id)` — note that the membership
test reads the *source's* list while the append extends the *target's*
list.  A `KeyError` (an endpoint that is not a block id) is modelled by
`Option`; the surrounding `try` of `run` catches it. -/

/-- One step of the dependency-map construction.  Faithful to the source:
`dependencies[source_id]` is read first (KeyError when the source is not
a block), the append is skipped when `target_id` already occurs in the
source's list, and otherwise `dependencies[target_id]` is extended
(KeyError when the target is not a block). -/
def add_dependency (B : List String) (deps : String → List String) (c : Conn) :
    Option (String → List String) :=
  if c.source_id ∈ B then
    if c.target_id ∈ deps c.source_id then some deps
    else if c.target_id ∈ B then
      some (fun k => if k = c.target_id then deps c.target_id ++ [c.source_id] else deps k)
    else none
  else none

/-- The dependency map `target -> [source, ...]` of
`_build_execution_order`, folded over the connection list.  Every block id
is initially mapped to `[]`. -/
def build_dependencies (B : List String) (conns : List Conn) :
    Option (String → List String) :=
  conns.foldl (fun acc c => acc.bind (fun deps => add_dependency B deps c)) (some (fun _ => []))

/-- Traversal state: the `visited` set and the `order` output list of the
inner `visit` of `_build_execution_order`. -/
abbrev VState := List String × List String

/-- The inner `visit` of `_build_execution_order`: mark the node visited,
recurse into its recorded predecessors, then append the node to the
order.  `fuel` bounds the recursion depth (the source recursion marks
before recursing, so depth `blocks.length + 1` is never exhausted). -/
def visit (deps : String → List String) : Nat → String → VState → VState
  | 0, _, st => st
  | Nat.succ fuel, b, st =>
    if b ∈ st.1 then st
    else
      let st1 := (deps b).foldl (fun s d => visit deps fuel d s) (b :: st.1, st.2)
      (st1.1, st1.2 ++ [b])

/-- `PipelineExecutionThread._build_execution_order`: build the dependency
map, then visit every block id in iteration order.  `none` models the
`KeyError` raised when a connection references a non-existent block id. -/
def build_execution_order (B : List String) (conns : List Conn) : Option (List String) :=
  match build_dependencies B conns with
  | none => none
  | some deps => some ((B.foldl (fun st b => visit deps (B.length + 1) b st) ([], [])).2)

/-! ### Invariants of the depth-first traversal -/

/-- Number of block ids not yet visited: the measure showing that the fuel
`blocks.length + 1` is never exhausted. -/
def needed (B : List String) (st : VState) : Nat :=
  (B.toFinset \ st.1.toFinset).card

/-- State invariant of the traversal: the output order has no duplicates
and only lists visited nodes. -/
def VInv (st : VState) : Prop := st.2.Nodup ∧ ∀ x ∈ st.2, x ∈ st.1

/-- How one `visit` call relates its input and output state: the visited
set only grows (by block ids), the order is only appended to, and the set
of "in-progress" nodes (visited but not yet output) is unchanged. -/
structure VPost (B : List String) (st st' : VState) : Prop where
  grow : ∀ x ∈ st.1, x ∈ st'.1
  ord_ext : ∃ l, st'.2 = st.2 ++ l
  gray : ∀ x, (x ∈ st'.1 ∧ x ∉ st'.2) ↔ (x ∈ st.1 ∧ x ∉ st.2)
  visB : ∀ x ∈ st'.1, x ∈ st.1 ∨ x ∈ B

/-- Conclusions of one `visit` call (used below for each recursive call). -/
def VisitOk (B : List String) (deps : String → List String) (f : Nat)
    (b : String) (st : VState) : Prop :=
  VPost B st (visit deps f b st) ∧ VInv (visit deps f b st) ∧
    b ∈ (visit deps f b st).1 ∧ (b ∈ st.1 ∨ b ∈ (visit deps f b st).2)

/-! ### Topological correctness of the traversal -/

/-- `d` occurs strictly before (some occurrence of) `t` in `l`. -/
def before (l : List String) (d t : String) : Prop :=
  ∃ l₁ l₂, l = l₁ ++ t :: l₂ ∧ d ∈ l₁

/-- Every node of `l` is preceded in `l` by each of its recorded
predecessors: the defining property of a topological order for the
dependency map. -/
def DepsSorted (deps : String → List String) (l : List String) : Prop :=
  ∀ t ∈ l, ∀ d ∈ deps t, before l d t

/-- The edge relation recorded by the dependency map: `depRel deps s t`
holds when `s` is listed as a predecessor of `t`. -/
def depRel (deps : String → List String) (s t : String) : Prop := s ∈ deps t

/-! ### The dependency map records exactly the connection edges
(up to the reversed duplicate test of the source, which can only drop an
edge whose reverse edge is also present — impossible in an acyclic
connection set) -/

/-- The edge relation of the connection list: a directed edge
`s -> t` for each connection record. -/
def connRel (conns : List Conn) (s t : String) : Prop :=
  ∃ c ∈ conns, c.source_id = s ∧ c.target_id = t

/-- The connection list contains no directed cycle: no nonempty edge path
returns to its start. -/
def AcyclicConns (conns : List Conn) : Prop :=
  ∀ x, ¬ Relation.TransGen (connRel conns) x x

/-! ### Fuel stabilization: the traversal is insensitive to any fuel of at
least `blocks.length + 1`, i.e. the recursion of the source terminates
within a depth bounded by the block count. -/

/-- `_build_execution_order` with an explicit recursion-depth bound. -/
def build_execution_order_fuel (F : Nat) (B : List String) (conns : List Conn) :
    Option (List String) :=
  match build_dependencies B conns with
  | none => none
  | some deps => some ((B.foldl (fun st b => visit deps F b st) ([], [])).2)

/-! ## Execution Engine: `PipelineExecutionThread` and `PipelineExecutor`

The four Qt signals of the worker thread become trace events; `run`
becomes a function from the pipeline data, the stage dispatch, and the
cancellation flag to the emitted event trace.  The mutable `should_stop`
flag (set by `stop()`, only ever from `False` to `True`) is modelled as
the sequence of values read from it: `stop n` is the n-th read, and a
monotone `stop` models the set-only flag. -/

/-- The signals of `PipelineExecutionThread` (`block_started`,
`block_completed`, `block_progress`, `pipeline_finished`). -/
inductive Event where
  | blockStarted (id : String)
  | blockCompleted (id : String) (success : Bool)
  | blockProgress (id : String) (msg : String)
  | pipelineFinished (success : Bool)
  deriving Repr, DecidableEq

/-- The abstract event vocabulary of the specification, which also names
a `RunStarted()` event.  The engine's signals are injected into it by
`toSpecEvent`; nothing maps to `runStarted`. -/
inductive SpecEvent where
  | runStarted
  | blockStarted (id : String)
  | blockProgress (id : String) (msg : String)
  | blockCompleted (id : String) (success : Bool)
  | runCompleted (success : Bool)
  deriving Repr, DecidableEq

def toSpecEvent : Event → SpecEvent
  | Event.blockStarted id => SpecEvent.blockStarted id
  | Event.blockProgress id m => SpecEvent.blockProgress id m
  | Event.blockCompleted id ok => SpecEvent.blockCompleted id ok
  | Event.pipelineFinished ok => SpecEvent.runCompleted ok

/-- `PipelineExecutionThread._execute_block`: dispatch on
`block_config.get('block_type')`, returning the success flag and the
`block_progress` emissions `(block_id, message)` in order.  The dispatch
is total (the source wraps it in `try`/`except`, converting any exception
into a `False` return): unknown block types take the final branch. -/
def execute_block (cfg : BlockData) : Bool × List (String × String) :=
  let bt := cfg.block_type
  let bid := cfg.block_id
  let head := (bid, "Starting " ++ bt ++ " execution...")
  if bt = "preprocessing" then
    (true, [head, (bid, "Running DICOM conversion and FreeSurfer...")])
  else if bt = "optimization" then
    (true, [head, (bid, "Running electrode optimization...")])
  else if bt = "simulation" then
    (true, [head, (bid, "Running simulation...")])
  else if bt = "analysis" then
    (true, [head, (bid, "Running analysis...")])
  else
    (false, [head, (bid, "Unknown block type: " ++ bt)])

/-- Progress pairs as `block_progress` events. -/
def progressEvents (l : List (String × String)) : List Event :=
  l.map (fun p => Event.blockProgress p.1 p.2)

/-- The `for block_id in execution_order` loop of
`PipelineExecutionThread.run`.  `i` counts the reads of `should_stop`:
the check at the head of each iteration is one read, and the
`pipeline_finished.emit(not self.should_stop)` after the loop (or after a
`break`) is a later read.  A `none` lookup models the `KeyError` of
`blocks[block_id]`, caught by the surrounding `try`. -/
def run_loop (blocks : List (String × BlockData))
    (dispatch : BlockData → Bool × List (String × String))
    (stop : Nat → Bool) : List String → Nat → List Event
  | [], i => [Event.pipelineFinished (!(stop i))]
  | id :: rest, i =>
    if stop i then [Event.pipelineFinished (!(stop (i + 1)))]
    else
      match blocks.lookup id with
      | none => [Event.blockProgress "" "Pipeline execution error",
                 Event.pipelineFinished false]
      | some cfg =>
        let r := dispatch cfg
        Event.blockStarted id ::
          (progressEvents r.2 ++
            (Event.blockCompleted id r.1 ::
              (if r.1 then run_loop blocks dispatch stop rest (i + 1)
               else [Event.pipelineFinished false])))

/-- `PipelineExecutionThread.run`: build the execution order, then walk
it.  A `KeyError` from `_build_execution_order` is caught by the `try`
and reported as an error progress message plus `pipeline_finished(False)`. -/
def thread_run (blocks : List (String × BlockData)) (conns : List Conn)
    (dispatch : BlockData → Bool × List (String × String))
    (stop : Nat → Bool) : List Event :=
  match build_execution_order (blocks.map Prod.fst) conns with
  | none => [Event.blockProgress "" "Pipeline execution error",
             Event.pipelineFinished false]
  | some order => run_loop blocks dispatch stop order 0

/-! ### The status table updated by `PipelineTab`'s signal handlers -/

/-- One signal handler step: `on_block_execution_started` sets the
block's status to `'running'`, `on_block_execution_completed` to
`'completed'`/`'failed'`; both only when the id is a block of
`current_pipeline`. -/
def apply_event (bids : List String) (statuses : String → String) :
    Event → (String → String)
  | Event.blockStarted id =>
      if id ∈ bids then (fun k => if k = id then "running" else statuses k) else statuses
  | Event.blockCompleted id ok =>
      if id ∈ bids then
        (fun k => if k = id then (if ok then "completed" else "failed") else statuses k)
      else statuses
  | _ => statuses

/-- The status table after a trace of engine events has been handled. -/
def statuses_after (bids : List String) (init : String → String)
    (tr : List Event) : String → String :=
  tr.foldl (apply_event bids) init

/-- Whether an event updates the status of block `c`. -/
def touches (c : String) : Event → Prop
  | Event.blockStarted id => id = c
  | Event.blockCompleted id _ => id = c
  | _ => False

/-- The block ids carried by `blockStarted` events, in order. -/
def startedIds (tr : List Event) : List String :=
  tr.filterMap (fun e => match e with
    | Event.blockStarted id => some id
    | _ => none)

/-! ### `PipelineExecutor`: the one-run-at-a-time guard -/

/-- The executor's observable state: its `is_running` flag and the number
of worker threads currently alive. -/
structure ExecutorState where
  is_running : Bool
  active_threads : Nat
  deriving Repr, DecidableEq

/-- Executor as constructed: idle, no worker. -/
def executor_init : ExecutorState := { is_running := false, active_threads := 0 }

/-- `PipelineExecutor.execute_pipeline`: returns `False` at once when
`is_running` (no thread is created); otherwise sets `is_running` and
starts one worker thread. -/
def execute_pipeline (s : ExecutorState) : ExecutorState × Bool :=
  if s.is_running then (s, false)
  else ({ is_running := true, active_threads := s.active_threads + 1 }, true)

/-- `PipelineExecutor._on_pipeline_finished`: the worker has finished
(and is dropped), the engine returns to idle. -/
def on_pipeline_finished (s : ExecutorState) : ExecutorState :=
  { is_running := false, active_threads := s.active_threads - 1 }

inductive ExecOp where
  | execute
  | finished
  deriving Repr, DecidableEq

def exec_step (s : ExecutorState) : ExecOp → ExecutorState
  | ExecOp.execute => (execute_pipeline s).1
  | ExecOp.finished => on_pipeline_finished s

/-- The executor state after a sequence of `execute_pipeline` calls and
worker completions. -/
def run_ops (ops : List ExecOp) : ExecutorState :=
  ops.foldl exec_step executor_init

/-! ### `PipelineTab.validate_pipeline` -/

/-- The validator's dependency map: `if conn['target_id'] in dependencies:
dependencies[conn['target_id']].append(conn['source_id'])` (tolerant of
unknown targets, no deduplication). -/
def validator_deps (blocks : List (String × BlockData)) (conns : List Conn) :
    String → List String :=
  conns.foldl
    (fun deps c =>
      if c.target_id ∈ blocks.map Prod.fst then
        fun k => if k = c.target_id then deps c.target_id ++ [c.source_id] else deps k
      else deps)
    (fun _ => [])

/-- The validator's `has_cycle(node)`: depth-first search over outgoing
connections with a `visited` set and a recursion stack; on detection it
returns at once (leaving the stack as is), otherwise it pops the node.
`fuel` bounds the recursion depth of the embedding. -/
def has_cycle (conns : List Conn) : Nat → String → List String → List String →
    Bool × List String × List String
  | 0, _, vis, rcs => (false, vis, rcs)
  | Nat.succ fuel, node, vis, rcs =>
    let r := ((conns.filter (fun c => c.source_id = node)).map (fun c => c.target_id)).foldl
      (fun (acc : Bool × List String × List String) n =>
        if acc.1 then acc
        else if n ∉ acc.2.1 then has_cycle conns fuel n acc.2.1 acc.2.2
        else if n ∈ acc.2.2 then (true, acc.2.1, acc.2.2)
        else acc)
      (false, node :: vis, node :: rcs)
    if r.1 then r else (false, r.2.1, r.2.2.erase node)

/-- The outer loop `for block_id in blocks: if block_id not in visited:
if has_cycle(block_id): ...; break`, threading the shared `visited` and
`rec_stack` sets. -/
def cycle_scan (conns : List Conn) (F : Nat) :
    List String → List String × List String → Bool
  | [], _ => false
  | bid :: rest, (vis, rcs) =>
    if bid ∈ vis then cycle_scan conns F rest (vis, rcs)
    else
      let r := has_cycle conns F bid vis rcs
      if r.1 then true else cycle_scan conns F rest (r.2.1, r.2.2)

/-- `PipelineTab.validate_pipeline`: the collected issue list, in the
source's append order (no blocks; needs an input block; orphan
non-input blocks; cycles). -/
def validate_pipeline (blocks : List (String × BlockData)) (conns : List Conn) :
    List String :=
  (if blocks.isEmpty then ["Pipeline has no blocks"] else []) ++
  (if blocks.any (fun b => b.2.block_type = "input") then []
   else ["Pipeline needs an input block"]) ++
  (blocks.filterMap (fun b =>
    if b.2.block_type ≠ "input" ∧ validator_deps blocks conns b.1 = [] then
      some ("Block '" ++ b.2.name ++ "' has no inputs")
    else none)) ++
  (if cycle_scan conns (blocks.length + 1) (blocks.map Prod.fst) ([], []) then
    ["Pipeline contains cycles"]
   else [])

/-! ### `PipelineTab.save_pipeline` / `load_pipeline`

`save_pipeline` updates the metadata from the two UI inputs and dumps
`current_pipeline` as JSON; `load_pipeline` parses the file and installs
the parsed data wholesale as `current_pipeline`, then rebuilds one
`BlockConfiguration` per block with
`status=ExecutionStatus(block_data.get('status', 'pending'))`.  The JSON
round trip is the identity on this data model, so serialization is
modelled as the identity on the snapshot record. -/

structure Metadata where
  name : String
  description : String
  created : String
  modified : String
  deriving Repr, DecidableEq

/-- `current_pipeline`: the blocks dictionary (insertion order), the
connection list and the metadata. -/
structure Pipeline where
  blocks : List (String × BlockData)
  connections : List Conn
  metadata : Metadata
  deriving Repr, DecidableEq

/-- `save_pipeline`: update `metadata.name`/`metadata.description` from
the UI inputs, then serialize `current_pipeline`. -/
def save_pipeline (p : Pipeline) (ui_name ui_description : String) : Pipeline :=
  { p with metadata := { p.metadata with name := ui_name, description := ui_description } }

/-- The values of the `BlockType` enumeration. -/
def block_type_values : List String :=
  ["input", "preprocessing", "optimization", "simulation", "analysis", "output"]

/-- The values of the `ExecutionStatus` enumeration. -/
def execution_status_values : List String :=
  ["pending", "running", "completed", "failed", "skipped"]

/-- The `BlockConfiguration` dataclass (the fields `load_pipeline`
populates). -/
structure BlockConfiguration where
  block_id : String
  block_type : String
  name : String
  parameters : List (String × ParamV)
  position : Int × Int
  status : String
  deriving Repr, DecidableEq

/-- One block of the loop of `load_pipeline`:
`BlockConfiguration(block_id=..., block_type=BlockType(block_data['block_type']),
name=..., parameters=..., position=...,
status=ExecutionStatus(block_data.get('status', 'pending')))`.
`none` models the `ValueError` of an enum constructor applied to an
invalid value. -/
def load_block_config (b : String × BlockData) : Option BlockConfiguration :=
  if b.2.block_type ∈ block_type_values then
    let st := b.2.status.getD "pending"
    if st ∈ execution_status_values then
      some { block_id := b.1, block_type := b.2.block_type, name := b.2.name,
             parameters := b.2.parameters, position := b.2.position, status := st }
    else none
  else none

/-- The `for block_id, block_data in pipeline_data.get('blocks', {}).items()`
loop of `load_pipeline`: build one `BlockConfiguration` per block,
aborting at the first invalid enum value. -/
def load_blocks : List (String × BlockData) → Option (List BlockConfiguration)
  | [] => some []
  | b :: l =>
    match load_block_config b with
    | none => none
    | some cfg =>
      match load_blocks l with
      | none => none
      | some cfgs => some (cfg :: cfgs)

/-- `load_pipeline`: `current_pipeline` is set to the parsed snapshot
wholesale, and the canvas is rebuilt from one `BlockConfiguration` per
block. -/
def load_pipeline (snapshot : Pipeline) : Pipeline × Option (List BlockConfiguration) :=
  (snapshot, load_blocks snapshot.blocks)

/-! ### Fixed pipelines built by `PipelineTab` -/

/-- `PipelineTab._get_default_parameters`, keyed by the `BlockType` value. -/
def get_default_parameters (block_type : String) : List (String × ParamV) :=
  if block_type = "input" then
    [("subjects", ParamV.slist []), ("subject_selection", ParamV.s "all")]
  else if block_type = "preprocessing" then
    [("convert_dicom", ParamV.b true), ("run_freesurfer", ParamV.b true),
     ("create_m2m", ParamV.b true), ("create_atlas", ParamV.b true),
     ("parallel", ParamV.b false), ("quiet", ParamV.b false)]
  else if block_type = "optimization" then
    [("method", ParamV.s "flex_search"), ("goal", ParamV.s "mean"),
     ("postproc", ParamV.s "max_TI"), ("roi_method", ParamV.s "spherical"),
     ("roi_coords", ParamV.ilist [0, 0, 0]), ("roi_radius", ParamV.i 10),
     ("max_iterations", ParamV.i 500), ("population_size", ParamV.i 13),
     ("electrode_radius", ParamV.i 10), ("electrode_current", ParamV.i 2)]
  else if block_type = "simulation" then
    [("simulation_type", ParamV.s "scalar"), ("simulation_mode", ParamV.s "unipolar"),
     ("current_ch1", ParamV.fl "1.0"), ("current_ch2", ParamV.fl "1.0"),
     ("electrode_shape", ParamV.s "ellipse"), ("electrode_dimensions", ParamV.s "8,8"),
     ("electrode_thickness", ParamV.i 8)]
  else if block_type = "analysis" then
    [("analysis_space", ParamV.s "mesh"), ("analysis_type", ParamV.s "spherical"),
     ("coordinates", ParamV.ilist [0, 0, 0]), ("radius", ParamV.i 5),
     ("generate_visualizations", ParamV.b true)]
  else if block_type = "output" then
    [("output_format", ParamV.s "nifti"), ("generate_report", ParamV.b true),
     ("archive_results", ParamV.b false)]
  else []

/-- `PipelineTab.create_full_pipeline`: the blocks (in insertion order)
and connections it installs.  The block records come from
`add_block_to_pipeline`, which stores no `status` key; the
presentation-only `inputs`/`outputs` keys are not modelled. -/
def create_full_pipeline (subjects : List String) (project_dir : String) :
    List (String × BlockData) × List Conn :=
  ([("input_1",
      { block_id := "input_1", block_type := "input", name := "DICOM Input",
        parameters := [("selected_subjects", ParamV.slist subjects),
          ("data_type", ParamV.s "DICOM"),
          ("source_directory", ParamV.s (project_dir ++ "/sourcedata"))],
        position := (50, 100), status := none }),
    ("preprocessing_1",
      { block_id := "preprocessing_1", block_type := "preprocessing",
        name := "Pre-processing", parameters := get_default_parameters "preprocessing",
        position := (300, 100), status := none }),
    ("optimization_1",
      { block_id := "optimization_1", block_type := "optimization",
        name := "Flex Search", parameters := get_default_parameters "optimization",
        position := (550, 100), status := none }),
    ("simulation_1",
      { block_id := "simulation_1", block_type := "simulation",
        name := "TI Simulation", parameters := get_default_parameters "simulation",
        position := (800, 100), status := none }),
    ("analysis_1",
      { block_id := "analysis_1", block_type := "analysis",
        name := "Analysis", parameters := get_default_parameters "analysis",
        position := (1050, 100), status := none }),
    ("output_1",
      { block_id := "output_1", block_type := "output",
        name := "Output", parameters := [], position := (1300, 100), status := none })],
   [{ source_id := "input_1", target_id := "preprocessing_1" },
    { source_id := "preprocessing_1", target_id := "optimization_1" },
    { source_id := "optimization_1", target_id := "simulation_1" },
    { source_id := "simulation_1", target_id := "analysis_1" },
    { source_id := "analysis_1", target_id := "output_1" }])

/-- `PipelineTab.create_optimization_pipeline`: blocks and connections. -/
def create_optimization_pipeline (subjects : List String) (project_dir : String) :
    List (String × BlockData) × List Conn :=
  ([("input_1",
      { block_id := "input_1", block_type := "input", name := "m2m Input",
        parameters := [("selected_subjects", ParamV.slist subjects),
          ("data_type", ParamV.s "m2m"),
          ("source_directory", ParamV.s project_dir)],
        position := (50, 100), status := none }),
    ("optimization_1",
      { block_id := "optimization_1", block_type := "optimization",
        name := "Flex Search", parameters := get_default_parameters "optimization",
        position := (300, 100), status := none }),
    ("simulation_1",
      { block_id := "simulation_1", block_type := "simulation",
        name := "TI Simulation", parameters := get_default_parameters "simulation",
        position := (550, 100), status := none }),
    ("analysis_1",
      { block_id := "analysis_1", block_type := "analysis",
        name := "Analysis", parameters := get_default_parameters "analysis",
        position := (800, 100), status := none }),
    ("output_1",
      { block_id := "output_1", block_type := "output",
        name := "Output", parameters := [], position := (1050, 100), status := none })],
   [{ source_id := "input_1", target_id := "optimization_1" },
    { source_id := "optimization_1", target_id := "simulation_1" },
    { source_id := "simulation_1", target_id := "analysis_1" },
    { source_id := "analysis_1", target_id := "output_1" }])

/-- A dispatch stub that succeeds for every kind and emits no progress
(the stub of the specification's example run). -/
def stub_dispatch : BlockData → Bool × List (String × String) := fun _ => (true, [])

/-- A run during which `stop()` is never called: every read of
`should_stop` yields `False`. -/
def no_stop : Nat → Bool := fun _ => false

/-- The cyclic two-block connection set `A -> B -> A`. -/
def cyc_conns : List Conn :=
  [{ source_id := "A", target_id := "B" }, { source_id := "B", target_id := "A" }]

/-- Blocks `{A: Input, B: Preprocessing}` of the specification's example. -/
def blocks_AB : List (String × BlockData) :=
  [("A", { block_id := "A", block_type := "input", name := "A" }),
   ("B", { block_id := "B", block_type := "preprocessing", name := "B" })]

/-- The single connection `A -> B` of the specification's example. -/
def conns_AB : List Conn := [{ source_id := "A", target_id := "B" }]

/-! ### Trace shape of the run loop -/

/-- The events emitted for one successfully dispatched block. -/
def seg_events (blocks : List (String × BlockData))
    (dispatch : BlockData → Bool × List (String × String)) (id : String) : List Event :=
  match blocks.lookup id with
  | none => []
  | some cfg =>
    Event.blockStarted id ::
      (progressEvents (dispatch cfg).2 ++ [Event.blockCompleted id (dispatch cfg).1])

/-- Blocks `{A, B}` with both kinds dispatchable (`preprocessing`), for
the cancellation scenario. -/
def blocks_PP : List (String × BlockData) :=
  [("A", { block_id := "A", block_type := "preprocessing", name := "A" }),
   ("B", { block_id := "B", block_type := "preprocessing", name := "B" })]

/-- A `should_stop` flag set after the first read: the run is cancelled
while the first block executes. -/
def stop_after_first : Nat → Bool := fun i => decide (1 ≤ i)

/-- The input-kind block `A` of `blocks_AB`. -/
def blockA_input : BlockData := { block_id := "A", block_type := "input", name := "A" }

/-- The preprocessing-kind block `A` of `blocks_PP`. -/
def blockA_pre : BlockData :=
  { block_id := "A", block_type := "preprocessing", name := "A" }

/-- A stand-alone `output`-kind block. -/
def output_block : BlockData :=
  { block_id := "output_1", block_type := "output", name := "Output" }

/-- A snapshot holding one block whose stored status is `'completed'`. -/
def c6_snapshot : Pipeline :=
  { blocks := [("input_1",
      { block_id := "input_1", block_type := "input", name := "DICOM Input",
        status := some "completed" })],
    connections := [],
    metadata := { name := "p", description := "", created := "", modified := "" } }


theorem needed_le_of_subset {B : List String} {st st' : VState}
    (h : ∀ x ∈ st.1, x ∈ st'.1) : needed B st' ≤ needed B st := by
  apply Finset.card_le_card
  intro x hx
  simp only [Finset.mem_sdiff, List.mem_toFinset] at hx ⊢
  exact ⟨hx.1, fun hm => hx.2 (h x hm)⟩

theorem needed_cons_lt {B vis ord : List String} {b : String}
    (hbB : b ∈ B) (hb : b ∉ vis) :
    needed B (b :: vis, ord) < needed B (vis, ord) := by
  apply Finset.card_lt_card
  rw [Finset.ssubset_iff_of_subset]
  · refine ⟨b, ?_, ?_⟩
    · simp only [Finset.mem_sdiff, List.mem_toFinset]; exact ⟨hbB, hb⟩
    · simp
  · intro x hx
    simp only [Finset.mem_sdiff, List.mem_toFinset, List.mem_cons] at hx ⊢
    exact ⟨hx.1, fun hm => hx.2 (Or.inr hm)⟩

theorem needed_le_length {B : List String} {st : VState} :
    needed B st ≤ B.length :=
  le_trans (Finset.card_le_card (Finset.sdiff_subset))
    (le_trans (Finset.card_le_card (by intro x; simp)) B.toFinset_card_le)

theorem vpost_refl {B : List String} {st : VState} : VPost B st st :=
  ⟨fun _ h => h, ⟨[], (List.append_nil _).symm⟩, fun _ => Iff.rfl, fun _ h => Or.inl h⟩

theorem vpost_trans {B : List String} {st st' st'' : VState}
    (h1 : VPost B st st') (h2 : VPost B st' st'') : VPost B st st'' where
  grow := fun x hx => h2.grow x (h1.grow x hx)
  ord_ext := by
    obtain ⟨l1, e1⟩ := h1.ord_ext
    obtain ⟨l2, e2⟩ := h2.ord_ext
    exact ⟨l1 ++ l2, by rw [e2, e1, List.append_assoc]⟩
  gray := fun x => (h2.gray x).trans (h1.gray x)
  visB := fun x hx => by
    rcases h2.visB x hx with h | h
    · exact h1.visB x h
    · exact Or.inr h

theorem vpost_ord_mem {B : List String} {st st' : VState} (h : VPost B st st')
    {x : String} (hx : x ∈ st.2) : x ∈ st'.2 := by
  obtain ⟨l, hl⟩ := h.ord_ext
  rw [hl]
  exact List.mem_append.2 (Or.inl hx)

theorem visit_fold_basic (B : List String) (deps : String → List String) (f : Nat)
    (hvisit : ∀ (b : String) (st : VState),
      needed B st ≤ f → b ∈ B → VInv st → VisitOk B deps f b st) :
    ∀ (ds : List String) (st : VState), (∀ d ∈ ds, d ∈ B) → needed B st ≤ f → VInv st →
      VPost B st (ds.foldl (fun s d => visit deps f d s) st) ∧
      VInv (ds.foldl (fun s d => visit deps f d s) st) ∧
      ∀ d ∈ ds, d ∈ (ds.foldl (fun s d => visit deps f d s) st).1 ∧
        (d ∈ (ds.foldl (fun s d => visit deps f d s) st).2 ∨ (d ∈ st.1 ∧ d ∉ st.2)) := by
  intro ds
  induction ds with
  | nil =>
    intro st _ _ hinv
    exact ⟨vpost_refl, hinv, by simp⟩
  | cons d ds IH =>
    intro st hds hf hinv
    simp only [List.foldl_cons]
    obtain ⟨hp1, hinv1, hd1, hd2⟩ := hvisit d st hf (hds d (by simp)) hinv
    obtain ⟨hp2, hinv2, hpt⟩ := IH (visit deps f d st) (fun x hx => hds x (by simp [hx]))
      (le_trans (needed_le_of_subset hp1.grow) hf) hinv1
    refine ⟨vpost_trans hp1 hp2, hinv2, ?_⟩
    intro x hx
    rcases List.mem_cons.1 hx with rfl | hxds
    · refine ⟨hp2.grow _ hd1, ?_⟩
      rcases hd2 with hdin | hdord
      · by_cases hdo : x ∈ st.2
        · exact Or.inl (vpost_ord_mem (vpost_trans hp1 hp2) hdo)
        · exact Or.inr ⟨hdin, hdo⟩
      · exact Or.inl (vpost_ord_mem hp2 hdord)
    · obtain ⟨hx1, hx2⟩ := hpt x hxds
      refine ⟨hx1, ?_⟩
      rcases hx2 with h | hgray
      · exact Or.inl h
      · exact Or.inr ((hp1.gray x).1 hgray)

theorem visit_basic (B : List String) (deps : String → List String)
    (hdeps : ∀ t d, d ∈ deps t → d ∈ B) :
    ∀ (f : Nat) (b : String) (st : VState), needed B st ≤ f → b ∈ B → VInv st →
      VisitOk B deps f b st := by
  intro f
  induction f with
  | zero =>
    intro b st hf hb hinv
    have hvis : b ∈ st.1 := by
      by_contra hnb
      have hmem : b ∈ B.toFinset \ st.1.toFinset := by
        simp only [Finset.mem_sdiff, List.mem_toFinset]
        exact ⟨hb, hnb⟩
      have := Finset.card_pos.2 ⟨b, hmem⟩
      have hz : needed B st = 0 := Nat.le_antisymm hf (Nat.zero_le _)
      rw [needed] at hz
      omega
    exact ⟨vpost_refl, hinv, hvis, Or.inl hvis⟩
  | succ f IH =>
    intro b st hf hb hinv
    by_cases hbv : b ∈ st.1
    · have heq : visit deps (f + 1) b st = st := by
        simp only [visit, if_pos hbv]
      rw [VisitOk, heq]
      exact ⟨vpost_refl, hinv, hbv, Or.inl hbv⟩
    · have heq : visit deps (f + 1) b st =
        (((deps b).foldl (fun s d => visit deps f d s) (b :: st.1, st.2)).1,
         ((deps b).foldl (fun s d => visit deps f d s) (b :: st.1, st.2)).2 ++ [b]) := by
        simp only [visit, if_neg hbv]
      have hfuel : needed B (b :: st.1, st.2) ≤ f := by
        have hlt := @needed_cons_lt B st.1 st.2 b hb hbv
        have : needed B st = needed B (st.1, st.2) := rfl
        omega
      have hinv1 : VInv (b :: st.1, st.2) :=
        ⟨hinv.1, fun x hx => List.mem_cons_of_mem _ (hinv.2 x hx)⟩
      obtain ⟨hpf, hinvf, hptf⟩ := visit_fold_basic B deps f IH (deps b) (b :: st.1, st.2)
        (fun d hd => hdeps b d hd) hfuel hinv1
      set stf := (deps b).foldl (fun s d => visit deps f d s) (b :: st.1, st.2) with hstf
      rw [VisitOk, heq]
      have hbord : b ∉ st.2 := fun h => hbv (hinv.2 b h)
      have hbgray : b ∈ stf.1 ∧ b ∉ stf.2 :=
        (hpf.gray b).2 ⟨List.mem_cons_self b st.1, hbord⟩
      refine ⟨?_, ?_, ?_, ?_⟩
      · refine ⟨?_, ?_, ?_, ?_⟩
        · intro x hx
          exact hpf.grow x (List.mem_cons_of_mem _ hx)
        · obtain ⟨l, hl⟩ := hpf.ord_ext
          exact ⟨l ++ [b], by simp [hl]⟩
        · intro x
          constructor
          · rintro ⟨hx1, hx2⟩
            have hx2' : x ∉ stf.2 := fun h => hx2 (List.mem_append.2 (Or.inl h))
            have hxb : x ≠ b := fun h => hx2 (by simp [h])
            have := (hpf.gray x).1 ⟨hx1, hx2'⟩
            rcases List.mem_cons.1 this.1 with h | h
            · exact absurd h hxb
            · exact ⟨h, this.2⟩
          · rintro ⟨hx1, hx2⟩
            have hxb : x ≠ b := fun h => hbv (h ▸ hx1)
            have := (hpf.gray x).2 ⟨List.mem_cons_of_mem _ hx1, hx2⟩
            refine ⟨this.1, fun h => ?_⟩
            rcases List.mem_append.1 h with h | h
            · exact this.2 h
            · exact hxb (by simpa using h)
        · intro x hx
          rcases hpf.visB x hx with h | h
          · rcases List.mem_cons.1 h with h' | h'
            · exact Or.inr (h' ▸ hb)
            · exact Or.inl h'
          · exact Or.inr h
      · constructor
        · rw [List.nodup_append]
          exact ⟨hinvf.1, List.nodup_singleton b, by
            intro a ha hb'
            simp only [List.mem_singleton] at hb'
            exact hbgray.2 (hb' ▸ ha)⟩
        · intro x hx
          rcases List.mem_append.1 hx with h | h
          · exact hinvf.2 x h
          · simp only [List.mem_singleton] at h
            exact h ▸ hbgray.1
      · exact hbgray.1
      · exact Or.inr (List.mem_append.2 (Or.inr (by simp)))

theorem before_append {l l' : List String} {d t : String}
    (h : before l d t) : before (l ++ l') d t := by
  obtain ⟨l₁, l₂, he, hd⟩ := h
  exact ⟨l₁, l₂ ++ l', by rw [he]; simp, hd⟩

theorem before_append_self {l : List String} {d t : String} (h : d ∈ l) :
    before (l ++ [t]) d t :=
  ⟨l, [], rfl, h⟩

theorem visit_fold_topo (B : List String) (deps : String → List String) (f : Nat)
    (hvisit : ∀ (b : String) (st : VState),
      needed B st ≤ f → b ∈ B → VInv st → VisitOk B deps f b st)
    (htopo : ∀ (b : String) (st : VState), needed B st ≤ f → b ∈ B → VInv st →
      DepsSorted deps st.2 →
      (∀ g, g ∈ st.1 → g ∉ st.2 → Relation.ReflTransGen (depRel deps) b g) →
      DepsSorted deps (visit deps f b st).2) :
    ∀ (ds : List String) (st : VState), (∀ d ∈ ds, d ∈ B) → needed B st ≤ f → VInv st →
      DepsSorted deps st.2 →
      (∀ d ∈ ds, ∀ g, g ∈ st.1 → g ∉ st.2 → Relation.ReflTransGen (depRel deps) d g) →
      DepsSorted deps (ds.foldl (fun s d => visit deps f d s) st).2 := by
  intro ds
  induction ds with
  | nil =>
    intro st _ _ _ hs _
    exact hs
  | cons d ds IH =>
    intro st hds hf hinv hs hgray
    simp only [List.foldl_cons]
    obtain ⟨hp1, hinv1, _, _⟩ := hvisit d st hf (hds d (by simp)) hinv
    have hs1 := htopo d st hf (hds d (by simp)) hinv hs (hgray d (by simp))
    exact IH (visit deps f d st) (fun x hx => hds x (by simp [hx]))
      (le_trans (needed_le_of_subset hp1.grow) hf) hinv1 hs1
      (fun d' hd' g hg1 hg2 =>
        hgray d' (by simp [hd']) g ((hp1.gray g).1 ⟨hg1, hg2⟩).1 ((hp1.gray g).1 ⟨hg1, hg2⟩).2)

theorem visit_topo (B : List String) (deps : String → List String)
    (hdeps : ∀ t d, d ∈ deps t → d ∈ B)
    (hacyc : ∀ x, ¬ Relation.TransGen (depRel deps) x x) :
    ∀ (f : Nat) (b : String) (st : VState), needed B st ≤ f → b ∈ B → VInv st →
      DepsSorted deps st.2 →
      (∀ g, g ∈ st.1 → g ∉ st.2 → Relation.ReflTransGen (depRel deps) b g) →
      DepsSorted deps (visit deps f b st).2 := by
  intro f
  induction f with
  | zero =>
    intro b st _ _ _ hs _
    exact hs
  | succ f IH =>
    intro b st hf hb hinv hs hgray
    by_cases hbv : b ∈ st.1
    · have heq : visit deps (f + 1) b st = st := by simp only [visit, if_pos hbv]
      rw [heq]; exact hs
    · have heq : visit deps (f + 1) b st =
        (((deps b).foldl (fun s d => visit deps f d s) (b :: st.1, st.2)).1,
         ((deps b).foldl (fun s d => visit deps f d s) (b :: st.1, st.2)).2 ++ [b]) := by
        simp only [visit, if_neg hbv]
      have hfuel : needed B (b :: st.1, st.2) ≤ f := by
        have hlt := @needed_cons_lt B st.1 st.2 b hb hbv
        have : needed B st = needed B (st.1, st.2) := rfl
        omega
      have hinv1 : VInv (b :: st.1, st.2) :=
        ⟨hinv.1, fun x hx => List.mem_cons_of_mem _ (hinv.2 x hx)⟩
      have hbord : b ∉ st.2 := fun h => hbv (hinv.2 b h)
      obtain ⟨hpf, hinvf, hptf⟩ :=
        visit_fold_basic B deps f (visit_basic B deps hdeps f) (deps b) (b :: st.1, st.2)
          (fun x hx => hdeps b x hx) hfuel hinv1
      set stf := (deps b).foldl (fun s d => visit deps f d s) (b :: st.1, st.2) with hstf
      have hgray1 : ∀ d ∈ deps b, ∀ g, g ∈ (b :: st.1, st.2).1 → g ∉ (b :: st.1, st.2).2 →
          Relation.ReflTransGen (depRel deps) d g := by
        intro d hd g hg1 hg2
        rcases List.mem_cons.1 hg1 with rfl | hg1'
        · exact Relation.ReflTransGen.single hd
        · exact Relation.ReflTransGen.head hd (hgray g hg1' hg2)
      have hsf : DepsSorted deps stf.2 :=
        visit_fold_topo B deps f (visit_basic B deps hdeps f) IH (deps b) (b :: st.1, st.2)
          (fun x hx => hdeps b x hx) hfuel hinv1 hs hgray1
      have hdin : ∀ d ∈ deps b, d ∈ stf.2 := by
        intro d hd
        rcases (hptf d hd).2 with h | hgr
        · exact h
        · exfalso
          rcases List.mem_cons.1 hgr.1 with rfl | hdv
          · exact hacyc d (Relation.TransGen.single hd)
          · exact hacyc b (Relation.TransGen.tail' (hgray d hdv hgr.2) hd)
      have hbf : b ∈ stf.1 ∧ b ∉ stf.2 :=
        (hpf.gray b).2 ⟨List.mem_cons_self b st.1, hbord⟩
      rw [heq]
      intro t ht d hd
      rcases List.mem_append.1 ht with ht' | ht'
      · exact before_append (hsf t ht' d hd)
      · simp only [List.mem_singleton] at ht'
        subst ht'
        exact before_append_self (hdin d hd)

theorem connRel_mono {conns : List Conn} {c : Conn} {s t : String}
    (h : connRel conns s t) : connRel (c :: conns) s t := by
  obtain ⟨c', hc', he⟩ := h
  exact ⟨c', List.mem_cons_of_mem _ hc', he⟩

theorem build_dependencies_fold (B : List String) :
    ∀ (cs : List Conn) (deps : String → List String),
      (∀ c ∈ cs, c.source_id ∈ B ∧ c.target_id ∈ B) →
      ∃ deps',
        cs.foldl (fun acc c => acc.bind (fun d => add_dependency B d c)) (some deps) =
          some deps' ∧
        (∀ t x, x ∈ deps' t → x ∈ deps t ∨ (connRel cs x t ∧ x ∈ B)) ∧
        (∀ t x, x ∈ deps t → x ∈ deps' t) ∧
        (∀ c ∈ cs, c.source_id ∈ deps' c.target_id ∨ c.target_id ∈ deps' c.source_id) := by
  intro cs
  induction cs with
  | nil =>
    intro deps _
    exact ⟨deps, rfl, fun t x h => Or.inl h, fun t x h => h, by simp⟩
  | cons c cs IH =>
    intro deps hc
    obtain ⟨hsrc, htgt⟩ := hc c (by simp)
    simp only [List.foldl_cons, Option.some_bind]
    by_cases hskip : c.target_id ∈ deps c.source_id
    · have hstep : add_dependency B deps c = some deps := by
        rw [add_dependency, if_pos hsrc, if_pos hskip]
      rw [hstep]
      obtain ⟨deps', he, hnew, hgrow, hrec⟩ := IH deps (fun x hx => hc x (by simp [hx]))
      refine ⟨deps', he, ?_, hgrow, ?_⟩
      · intro t x hx
        rcases hnew t x hx with h | h
        · exact Or.inl h
        · exact Or.inr ⟨connRel_mono h.1, h.2⟩
      · intro c' hc'
        rcases List.mem_cons.1 hc' with rfl | h
        · exact Or.inr (hgrow _ _ hskip)
        · exact hrec c' h
    · have hstep : add_dependency B deps c =
          some (fun k => if k = c.target_id then deps c.target_id ++ [c.source_id]
            else deps k) := by
        rw [add_dependency, if_pos hsrc, if_neg hskip, if_pos htgt]
      rw [hstep]
      obtain ⟨deps', he, hnew, hgrow, hrec⟩ :=
        IH (fun k => if k = c.target_id then deps c.target_id ++ [c.source_id] else deps k)
          (fun x hx => hc x (by simp [hx]))
      refine ⟨deps', he, ?_, ?_, ?_⟩
      · intro t x hx
        rcases hnew t x hx with h | h
        · by_cases ht : t = c.target_id
          · subst ht
            rw [if_pos rfl] at h
            rcases List.mem_append.1 h with h' | h'
            · exact Or.inl h'
            · simp only [List.mem_singleton] at h'
              subst h'
              exact Or.inr ⟨⟨c, by simp⟩, hsrc⟩
          · rw [if_neg ht] at h
            exact Or.inl h
        · exact Or.inr ⟨connRel_mono h.1, h.2⟩
      · intro t x hx
        apply hgrow
        by_cases ht : t = c.target_id
        · subst ht
          rw [if_pos rfl]
          exact List.mem_append.2 (Or.inl hx)
        · rw [if_neg ht]
          exact hx
      · intro c' hc'
        rcases List.mem_cons.1 hc' with rfl | h
        · exact Or.inl (hgrow _ _ (by rw [if_pos rfl]; simp))
        · exact hrec c' h

theorem build_dependencies_spec (B : List String) (conns : List Conn)
    (hc : ∀ c ∈ conns, c.source_id ∈ B ∧ c.target_id ∈ B) :
    ∃ deps, build_dependencies B conns = some deps ∧
      (∀ t x, x ∈ deps t → connRel conns x t ∧ x ∈ B) ∧
      (AcyclicConns conns → ∀ c ∈ conns, c.source_id ∈ deps c.target_id) := by
  obtain ⟨deps', he, hnew, _, hrec⟩ := build_dependencies_fold B conns (fun _ => []) hc
  refine ⟨deps', he, ?_, ?_⟩
  · intro t x hx
    rcases hnew t x hx with h | h
    · simp at h
    · exact h
  · intro hacyc c hcmem
    rcases hrec c hcmem with h | h
    · exact h
    · exfalso
      have hrev : connRel conns c.target_id c.source_id := by
        rcases hnew _ _ h with h' | h'
        · simp at h'
        · exact h'.1
      exact hacyc c.source_id
        (Relation.TransGen.head (⟨c, hcmem, rfl, rfl⟩ : connRel conns c.source_id c.target_id)
          (Relation.TransGen.single hrev))

/-! ### Main resolver theorems -/

theorem build_execution_order_complete (B : List String) (conns : List Conn)
    (hc : ∀ c ∈ conns, c.source_id ∈ B ∧ c.target_id ∈ B) :
    ∃ ord, build_execution_order B conns = some ord ∧ ord.Nodup ∧
      ∀ b, b ∈ ord ↔ b ∈ B := by
  obtain ⟨deps, hbd, hfwd, _⟩ := build_dependencies_spec B conns hc
  have hdeps : ∀ t d, d ∈ deps t → d ∈ B := fun t d hd => (hfwd t d hd).2
  obtain ⟨hp, hinv, hpt⟩ := visit_fold_basic B deps (B.length + 1)
    (visit_basic B deps hdeps (B.length + 1)) B ([], [])
    (fun _ hb => hb) (le_trans needed_le_length (Nat.le_succ _)) ⟨List.nodup_nil, by simp⟩
  refine ⟨_, by simp only [build_execution_order, hbd], hinv.1, fun b => ⟨?_, ?_⟩⟩
  · intro hb
    rcases hp.visB b (hinv.2 b hb) with h | h
    · simp at h
    · exact h
  · intro hb
    rcases (hpt b hb).2 with h | h
    · exact h
    · simp at h

theorem build_execution_order_topo (B : List String) (conns : List Conn)
    (hc : ∀ c ∈ conns, c.source_id ∈ B ∧ c.target_id ∈ B)
    (hacyc : AcyclicConns conns) :
    ∃ ord, build_execution_order B conns = some ord ∧ ord.Nodup ∧
      (∀ b, b ∈ ord ↔ b ∈ B) ∧
      ∀ c ∈ conns, before ord c.source_id c.target_id := by
  obtain ⟨deps, hbd, hfwd, hbwd⟩ := build_dependencies_spec B conns hc
  have hdeps : ∀ t d, d ∈ deps t → d ∈ B := fun t d hd => (hfwd t d hd).2
  have hEacyc : ∀ x, ¬ Relation.TransGen (depRel deps) x x := by
    intro x hx
    exact hacyc x (Relation.TransGen.mono (fun a b hab => (hfwd b a hab).1) hx)
  obtain ⟨hp, hinv, hpt⟩ := visit_fold_basic B deps (B.length + 1)
    (visit_basic B deps hdeps (B.length + 1)) B ([], [])
    (fun _ hb => hb) (le_trans needed_le_length (Nat.le_succ _)) ⟨List.nodup_nil, by simp⟩
  have hsorted : DepsSorted deps
      (B.foldl (fun st b => visit deps (B.length + 1) b st) ([], [])).2 :=
    visit_fold_topo B deps (B.length + 1) (visit_basic B deps hdeps (B.length + 1))
      (visit_topo B deps hdeps hEacyc (B.length + 1)) B ([], [])
      (fun _ hb => hb) (le_trans needed_le_length (Nat.le_succ _)) ⟨List.nodup_nil, by simp⟩
      (by intro t ht; simp at ht) (by intro d _ g hg; simp at hg)
  have hmem : ∀ b, b ∈ (B.foldl (fun st b => visit deps (B.length + 1) b st) ([], [])).2 ↔
      b ∈ B := by
    intro b
    constructor
    · intro hb
      rcases hp.visB b (hinv.2 b hb) with h | h
      · simp at h
      · exact h
    · intro hb
      rcases (hpt b hb).2 with h | h
      · exact h
      · simp at h
  refine ⟨_, by simp only [build_execution_order, hbd], hinv.1, hmem, ?_⟩
  intro c hcm
  exact hsorted c.target_id ((hmem c.target_id).2 (hc c hcm).2) c.source_id
    (hbwd hacyc c hcm)

theorem build_execution_order_eq_fuel (B : List String) (conns : List Conn) :
    build_execution_order B conns = build_execution_order_fuel (B.length + 1) B conns := rfl

theorem visit_fuel_stable (B : List String) (deps : String → List String)
    (hdeps : ∀ t d, d ∈ deps t → d ∈ B) :
    ∀ (f k : Nat) (b : String) (st : VState), needed B st ≤ f → b ∈ B → VInv st →
      visit deps (f + k) b st = visit deps f b st := by
  intro f
  induction f with
  | zero =>
    intro k b st hf hb _
    have hvis : b ∈ st.1 := by
      by_contra hnb
      have hmem : b ∈ B.toFinset \ st.1.toFinset := by
        simp only [Finset.mem_sdiff, List.mem_toFinset]
        exact ⟨hb, hnb⟩
      have := Finset.card_pos.2 ⟨b, hmem⟩
      have hz : needed B st = 0 := Nat.le_antisymm hf (Nat.zero_le _)
      rw [needed] at hz
      omega
    cases k with
    | zero => rfl
    | succ k => simp [visit, if_pos hvis]
  | succ f IH =>
    intro k b st hf hb hinv
    have hfold : ∀ (ds : List String) (st' : VState), (∀ d ∈ ds, d ∈ B) →
        needed B st' ≤ f → VInv st' →
        ds.foldl (fun s d => visit deps (f + k) d s) st' =
          ds.foldl (fun s d => visit deps f d s) st' := by
      intro ds
      induction ds with
      | nil => intro st' _ _ _; rfl
      | cons d ds IHd =>
        intro st' hds hf' hinv'
        simp only [List.foldl_cons]
        rw [IH k d st' hf' (hds d (by simp)) hinv']
        obtain ⟨hp1, hinv1, _, _⟩ := visit_basic B deps hdeps f d st' hf' (hds d (by simp)) hinv'
        exact IHd (visit deps f d st') (fun x hx => hds x (by simp [hx]))
          (le_trans (needed_le_of_subset hp1.grow) hf') hinv1
    by_cases hbv : b ∈ st.1
    · have h1 : visit deps (f + 1 + k) b st = st := by
        have : f + 1 + k = (f + k) + 1 := by omega
        rw [this]
        simp [visit, if_pos hbv]
      have h2 : visit deps (f + 1) b st = st := by simp [visit, if_pos hbv]
      rw [h1, h2]
    · have hfuel : needed B (b :: st.1, st.2) ≤ f := by
        have hlt := @needed_cons_lt B st.1 st.2 b hb hbv
        have : needed B st = needed B (st.1, st.2) := rfl
        omega
      have hinv1 : VInv (b :: st.1, st.2) :=
        ⟨hinv.1, fun x hx => List.mem_cons_of_mem _ (hinv.2 x hx)⟩
      have hstep : f + 1 + k = (f + k) + 1 := by omega
      rw [hstep]
      simp only [visit, if_neg hbv]
      rw [hfold (deps b) (b :: st.1, st.2) (fun x hx => hdeps b x hx) hfuel hinv1]

theorem build_execution_order_fuel_stable (B : List String) (conns : List Conn)
    (hc : ∀ c ∈ conns, c.source_id ∈ B ∧ c.target_id ∈ B) :
    ∀ extra, build_execution_order_fuel (B.length + 1 + extra) B conns =
      build_execution_order B conns := by
  intro extra
  obtain ⟨deps, hbd, hfwd, _⟩ := build_dependencies_spec B conns hc
  have hdeps : ∀ t d, d ∈ deps t → d ∈ B := fun t d hd => (hfwd t d hd).2
  have hfold : ∀ (bs : List String) (st : VState), (∀ b ∈ bs, b ∈ B) → VInv st →
      bs.foldl (fun st b => visit deps (B.length + 1 + extra) b st) st =
        bs.foldl (fun st b => visit deps (B.length + 1) b st) st := by
    intro bs
    induction bs with
    | nil => intro st _ _; rfl
    | cons b bs IHb =>
      intro st hbs hinv
      simp only [List.foldl_cons]
      have hfuel : needed B st ≤ B.length + 1 :=
        le_trans needed_le_length (Nat.le_succ _)
      rw [visit_fuel_stable B deps hdeps (B.length + 1) extra b st hfuel
        (hbs b (by simp)) hinv]
      obtain ⟨hp1, hinv1, _, _⟩ := visit_basic B deps hdeps (B.length + 1) b st hfuel
        (hbs b (by simp)) hinv
      exact IHb (visit deps (B.length + 1) b st) (fun x hx => hbs x (by simp [hx])) hinv1
  simp only [build_execution_order, build_execution_order_fuel, hbd]
  rw [hfold B ([], []) (fun _ hb => hb) ⟨List.nodup_nil, by simp⟩]

theorem run_loop_prefix (blocks : List (String × BlockData))
    (dispatch : BlockData → Bool × List (String × String)) (stop : Nat → Bool) :
    ∀ (done rest : List String) (i : Nat),
      (∀ j, j < done.length → stop (i + j) = false) →
      (∀ id ∈ done, ∃ cfg, blocks.lookup id = some cfg ∧ (dispatch cfg).1 = true) →
      run_loop blocks dispatch stop (done ++ rest) i =
        done.flatMap (seg_events blocks dispatch) ++
          run_loop blocks dispatch stop rest (i + done.length) := by
  intro done
  induction done with
  | nil => intro rest i _ _; simp
  | cons d done IH =>
    intro rest i hstop hok
    obtain ⟨cfg, hcfg, hsucc⟩ := hok d (by simp)
    have hsi : stop i = false := by simpa using hstop 0 (by simp)
    have hrec := IH rest (i + 1)
      (fun j hj => by
        have h := hstop (j + 1) (by simp only [List.length_cons]; omega)
        rwa [show i + (j + 1) = i + 1 + j by omega] at h)
      (fun id hid => hok id (by simp [hid]))
    have harith : i + (d :: done).length = i + 1 + done.length := by
      simp only [List.length_cons]; omega
    simp only [List.cons_append, run_loop, hsi, Bool.false_eq_true, if_false, hcfg, hsucc,
      if_true, harith, hrec, List.flatMap_cons, seg_events]
    simp [List.append_eq, hrec]

theorem apply_event_untouched {bids : List String} {st : String → String} {e : Event}
    {c : String} (h : ¬ touches c e) : apply_event bids st e c = st c := by
  cases e with
  | blockStarted id =>
    have hne : c ≠ id := fun hc => h (by simp [touches, hc])
    simp only [apply_event]
    split
    · simp [hne]
    · rfl
  | blockCompleted id ok =>
    have hne : c ≠ id := fun hc => h (by simp [touches, hc])
    simp only [apply_event]
    split
    · simp [hne]
    · rfl
  | blockProgress id m => rfl
  | pipelineFinished ok => rfl

theorem statuses_after_untouched {bids : List String} {c : String} :
    ∀ {tr : List Event} {init : String → String}, (∀ e ∈ tr, ¬ touches c e) →
      statuses_after bids init tr c = init c := by
  intro tr
  induction tr with
  | nil => intro init _; rfl
  | cons e tr IH =>
    intro init h
    have h1 : statuses_after bids init (e :: tr) = statuses_after bids (apply_event bids init e) tr := rfl
    rw [h1, IH (fun e' he' => h e' (by simp [he']))]
    exact apply_event_untouched (h e (by simp))

theorem touches_progressEvents {l : List (String × String)} {c : String} {e : Event}
    (he : e ∈ progressEvents l) : ¬ touches c e := by
  simp only [progressEvents, List.mem_map] at he
  obtain ⟨p, _, rfl⟩ := he
  simp [touches]

theorem touches_seg {blocks : List (String × BlockData)}
    {dispatch : BlockData → Bool × List (String × String)} {id c : String} {e : Event}
    (he : e ∈ seg_events blocks dispatch id) (ht : touches c e) : c = id := by
  rw [seg_events] at he
  cases hl : blocks.lookup id with
  | none => rw [hl] at he; simp at he
  | some cfg =>
    rw [hl] at he
    rcases List.mem_cons.1 he with rfl | he'
    · simpa [touches, eq_comm] using ht
    · rcases List.mem_append.1 he' with hp | hc'
      · exact absurd ht (touches_progressEvents hp)
      · simp only [List.mem_singleton] at hc'
        subst hc'
        simpa [touches, eq_comm] using ht

theorem started_mem_trace {tr : List Event} {c : String} :
    Event.blockStarted c ∈ tr ↔ c ∈ startedIds tr := by
  simp only [startedIds, List.mem_filterMap]
  constructor
  · intro h
    exact ⟨Event.blockStarted c, h, rfl⟩
  · rintro ⟨e, he, hm⟩
    cases e <;> simp_all

theorem startedIds_append (tr tr' : List Event) :
    startedIds (tr ++ tr') = startedIds tr ++ startedIds tr' := by
  simp [startedIds]

theorem startedIds_progress (l : List (String × String)) :
    startedIds (progressEvents l) = [] := by
  simp [startedIds, progressEvents, List.filterMap_map]

theorem startedIds_seg {blocks : List (String × BlockData)}
    {dispatch : BlockData → Bool × List (String × String)} {id : String}
    {cfg : BlockData} (hl : blocks.lookup id = some cfg) :
    startedIds (seg_events blocks dispatch id) = [id] := by
  rw [seg_events, hl]
  have h1 : startedIds (Event.blockStarted id ::
      (progressEvents (dispatch cfg).2 ++ [Event.blockCompleted id (dispatch cfg).1])) =
      id :: startedIds (progressEvents (dispatch cfg).2 ++
        [Event.blockCompleted id (dispatch cfg).1]) := rfl
  rw [h1, startedIds_append, startedIds_progress]
  rfl

theorem startedIds_cons_started {id : String} {tr : List Event} :
    startedIds (Event.blockStarted id :: tr) = id :: startedIds tr := rfl

theorem startedIds_flatMap {blocks : List (String × BlockData)}
    {dispatch : BlockData → Bool × List (String × String)} :
    ∀ {done : List String},
      (∀ id ∈ done, ∃ cfg, blocks.lookup id = some cfg ∧ (dispatch cfg).1 = true) →
      startedIds (done.flatMap (seg_events blocks dispatch)) = done := by
  intro done
  induction done with
  | nil => intro _; rfl
  | cons d done IH =>
    intro hok
    obtain ⟨cfg, hcfg, _⟩ := hok d (by simp)
    rw [List.flatMap_cons, startedIds_append, startedIds_seg hcfg,
      IH (fun id hid => hok id (by simp [hid]))]
    rfl

/-! ### Supporting lemmas for the claim theorems -/

theorem run_ops_key :
    ∀ (ops : List ExecOp) (s : ExecutorState),
      s.active_threads = (if s.is_running then 1 else 0) →
      (ops.foldl exec_step s).active_threads =
        (if (ops.foldl exec_step s).is_running then 1 else 0) := by
  intro ops
  induction ops with
  | nil => intro s h; exact h
  | cons op ops IH =>
    intro s h
    apply IH
    cases op with
    | execute =>
      simp only [exec_step, execute_pipeline]
      by_cases hr : s.is_running
      · simp [hr, h]
      · simp only [hr, if_false, Bool.false_eq_true]
        simp [hr] at h
        simp [h]
    | finished =>
      simp only [exec_step, on_pipeline_finished]
      by_cases hr : s.is_running <;> simp [hr] at h ⊢ <;> omega

theorem run_ops_at_most_one (ops : List ExecOp) : (run_ops ops).active_threads ≤ 1 := by
  have h := run_ops_key ops executor_init rfl
  rw [run_ops] at *
  rw [h]
  split <;> omega

theorem connRel_single {s t x y : String}
    (h : connRel [{ source_id := s, target_id := t }] x y) : x = s ∧ y = t := by
  obtain ⟨c, hc, hx, hy⟩ := h
  simp only [List.mem_singleton] at hc
  subst hc
  exact ⟨hx.symm, hy.symm⟩

theorem acyclic_single_conn (s t : String) (hne : s ≠ t) :
    AcyclicConns [{ source_id := s, target_id := t }] := by
  intro x hx
  have step : ∀ a b : String,
      Relation.TransGen (connRel [{ source_id := s, target_id := t }]) a b →
      a = s ∧ b = t := by
    intro a b h
    induction h with
    | single h1 => exact connRel_single h1
    | tail _ h2 ih =>
      exact absurd ((connRel_single h2).1.symm.trans ih.2) hne
  exact hne ((step x x hx).1.symm.trans (step x x hx).2)

theorem load_blocks_all_valid :
    ∀ (l : List (String × BlockData)),
      (∀ b ∈ l, b.2.block_type ∈ block_type_values ∧
        b.2.status.getD "pending" ∈ execution_status_values) →
      load_blocks l = some (l.map (fun b =>
        { block_id := b.1, block_type := b.2.block_type, name := b.2.name,
          parameters := b.2.parameters, position := b.2.position,
          status := b.2.status.getD "pending" })) := by
  intro l
  induction l with
  | nil => intro _; rfl
  | cons b l IH =>
    intro h
    obtain ⟨h1, h2⟩ := h b (by simp)
    have hcfg : load_block_config b = some
        { block_id := b.1, block_type := b.2.block_type, name := b.2.name,
          parameters := b.2.parameters, position := b.2.position,
          status := b.2.status.getD "pending" } := by
      rw [load_block_config, if_pos h1]
      simp only [h2, if_true]
    rw [load_blocks, hcfg, IH (fun x hx => h x (by simp [hx])), List.map_cons]

/-- The execution order returned for connections over existing block ids
has no duplicates, so a block after the failing one is neither the
failing block nor an earlier one. -/
theorem order_parts_nodup {B : List String} {conns : List Conn}
    {done : List String} {b : String} {rest : List String}
    (hc : ∀ c ∈ conns, c.source_id ∈ B ∧ c.target_id ∈ B)
    (horder : build_execution_order B conns = some (done ++ b :: rest)) :
    ∀ c ∈ rest, c ∉ done ∧ c ≠ b := by
  obtain ⟨ord, hord, hnodup, _⟩ := build_execution_order_complete B conns hc
  rw [horder] at hord
  have heq : done ++ b :: rest = ord := Option.some.inj hord
  rw [← heq] at hnodup
  rw [List.nodup_append] at hnodup
  intro c hcr
  constructor
  · intro hcd
    exact hnodup.2.2 hcd (List.mem_cons_of_mem _ hcr)
  · intro hcb
    subst hcb
    exact (List.nodup_cons.1 hnodup.2.1).1 hcr

theorem thread_run_failfast (blocks : List (String × BlockData)) (conns : List Conn)
    (dispatch : BlockData → Bool × List (String × String))
    (done : List String) (b : String) (rest : List String) (cfgb : BlockData)
    (hc : ∀ c ∈ conns, c.source_id ∈ blocks.map Prod.fst ∧
      c.target_id ∈ blocks.map Prod.fst)
    (horder : build_execution_order (blocks.map Prod.fst) conns =
      some (done ++ b :: rest))
    (hdone : ∀ id ∈ done, ∃ cfg, blocks.lookup id = some cfg ∧ (dispatch cfg).1 = true)
    (hb : blocks.lookup b = some cfgb) (hfail : (dispatch cfgb).1 = false) :
    thread_run blocks conns dispatch no_stop =
      (done.flatMap (seg_events blocks dispatch) ++
        (Event.blockStarted b :: progressEvents (dispatch cfgb).2)) ++
      [Event.blockCompleted b false, Event.pipelineFinished false] ∧
    (∀ c ∈ rest, Event.blockStarted c ∉ thread_run blocks conns dispatch no_stop) ∧
    (∀ c ∈ rest, statuses_after (blocks.map Prod.fst) (fun _ => "pending")
      (thread_run blocks conns dispatch no_stop) c = "pending") := by
  have htr : thread_run blocks conns dispatch no_stop =
      run_loop blocks dispatch no_stop (done ++ b :: rest) 0 := by
    simp only [thread_run, horder]
  have hpre := run_loop_prefix blocks dispatch no_stop done (b :: rest) 0
    (fun j _ => rfl) hdone
  have hstep : run_loop blocks dispatch no_stop (b :: rest) (0 + done.length) =
      Event.blockStarted b :: (progressEvents (dispatch cfgb).2 ++
        (Event.blockCompleted b false :: [Event.pipelineFinished false])) := by
    simp [run_loop, no_stop, hb, hfail]
  have hmain : thread_run blocks conns dispatch no_stop =
      (done.flatMap (seg_events blocks dispatch) ++
        (Event.blockStarted b :: progressEvents (dispatch cfgb).2)) ++
      [Event.blockCompleted b false, Event.pipelineFinished false] := by
    rw [htr, hpre, hstep]
    simp [List.append_assoc]
  have hparts := order_parts_nodup hc horder
  refine ⟨hmain, ?_, ?_⟩
  · intro c hcr hmem
    obtain ⟨hcd, hcb⟩ := hparts c hcr
    rw [hmain] at hmem
    rcases List.mem_append.1 hmem with hmem | hmem
    · rcases List.mem_append.1 hmem with hmem | hmem
      · obtain ⟨id, hid, hseg⟩ := List.mem_flatMap.1 hmem
        have hcid : c = id :=
          touches_seg hseg (show touches c (Event.blockStarted c) by simp [touches])
        exact hcd (hcid ▸ hid)
      · rcases List.mem_cons.1 hmem with heq | hmem
        · exact hcb (Event.blockStarted.inj heq)
        · exact absurd (show touches c (Event.blockStarted c) by simp [touches])
            (touches_progressEvents hmem)
    · simp at hmem
  · intro c hcr
    obtain ⟨hcd, hcb⟩ := hparts c hcr
    rw [hmain]
    apply statuses_after_untouched
    intro e he
    rcases List.mem_append.1 he with he | he
    · rcases List.mem_append.1 he with he | he
      · obtain ⟨id, hid, hseg⟩ := List.mem_flatMap.1 he
        intro ht
        exact hcd ((touches_seg hseg ht) ▸ hid)
      · rcases List.mem_cons.1 he with rfl | he
        · intro ht
          exact hcb (by simpa [touches, eq_comm] using ht)
        · exact touches_progressEvents he
    · rcases List.mem_cons.1 he with rfl | he
      · intro ht
        exact hcb (by simpa [touches, eq_comm] using ht)
      · simp only [List.mem_singleton] at he
        subst he
        simp [touches]

theorem thread_run_stopped (blocks : List (String × BlockData)) (conns : List Conn)
    (dispatch : BlockData → Bool × List (String × String)) (stop : Nat → Bool)
    (done : List String) (b : String) (rest : List String) (cfgb : BlockData)
    (hc : ∀ c ∈ conns, c.source_id ∈ blocks.map Prod.fst ∧
      c.target_id ∈ blocks.map Prod.fst)
    (horder : build_execution_order (blocks.map Prod.fst) conns =
      some (done ++ b :: rest))
    (hdone : ∀ id ∈ done, ∃ cfg, blocks.lookup id = some cfg ∧ (dispatch cfg).1 = true)
    (hb : blocks.lookup b = some cfgb)
    (hstop_false : ∀ j, j ≤ done.length → stop j = false)
    (hstop_true : stop (done.length + 1) = true)
    (hmono : ∀ i, stop i = true → stop (i + 1) = true) :
    thread_run blocks conns dispatch stop =
      (done.flatMap (seg_events blocks dispatch) ++
        (Event.blockStarted b :: progressEvents (dispatch cfgb).2)) ++
      [Event.blockCompleted b (dispatch cfgb).1, Event.pipelineFinished false] ∧
    startedIds (thread_run blocks conns dispatch stop) = done ++ [b] ∧
    (∀ c ∈ rest, Event.blockStarted c ∉ thread_run blocks conns dispatch stop) := by
  have htr : thread_run blocks conns dispatch stop =
      run_loop blocks dispatch stop (done ++ b :: rest) 0 := by
    simp only [thread_run, horder]
  have hpre := run_loop_prefix blocks dispatch stop done (b :: rest) 0
    (fun j hj => by simpa using hstop_false j (Nat.le_of_lt hj)) hdone
  have htail : (if (dispatch cfgb).1 = true then
      run_loop blocks dispatch stop rest (done.length + 1)
      else [Event.pipelineFinished false]) = [Event.pipelineFinished false] := by
    by_cases hr : (dispatch cfgb).1 = true
    · rw [if_pos hr]
      cases rest with
      | nil => simp [run_loop, hstop_true]
      | cons r rest' => simp [run_loop, hstop_true, hmono _ hstop_true]
    · rw [if_neg hr]
  have hstep : run_loop blocks dispatch stop (b :: rest) (0 + done.length) =
      Event.blockStarted b :: (progressEvents (dispatch cfgb).2 ++
        (Event.blockCompleted b (dispatch cfgb).1 :: [Event.pipelineFinished false])) := by
    have hsb : stop (0 + done.length) = false := by
      simpa using hstop_false done.length (Nat.le_refl _)
    simp only [run_loop, hsb, Bool.false_eq_true, if_false, hb]
    rw [show (0 + done.length) + 1 = done.length + 1 by omega, htail]
  have hmain : thread_run blocks conns dispatch stop =
      (done.flatMap (seg_events blocks dispatch) ++
        (Event.blockStarted b :: progressEvents (dispatch cfgb).2)) ++
      [Event.blockCompleted b (dispatch cfgb).1, Event.pipelineFinished false] := by
    rw [htr, hpre, hstep]
    simp [List.append_assoc]
  have hparts := order_parts_nodup hc horder
  refine ⟨hmain, ?_, ?_⟩
  · rw [hmain, startedIds_append, startedIds_append, startedIds_flatMap hdone,
      startedIds_cons_started, startedIds_progress]
    have h2 : startedIds [Event.blockCompleted b (dispatch cfgb).1,
      Event.pipelineFinished false] = [] := rfl
    rw [h2]
    simp
  · intro c hcr hmem
    obtain ⟨hcd, hcb⟩ := hparts c hcr
    rw [hmain] at hmem
    rcases List.mem_append.1 hmem with hmem | hmem
    · rcases List.mem_append.1 hmem with hmem | hmem
      · obtain ⟨id, hid, hseg⟩ := List.mem_flatMap.1 hmem
        have hcid : c = id :=
          touches_seg hseg (show touches c (Event.blockStarted c) by simp [touches])
        exact hcd (hcid ▸ hid)
      · rcases List.mem_cons.1 hmem with heq | hmem
        · exact hcb (Event.blockStarted.inj heq)
        · exact absurd (show touches c (Event.blockStarted c) by simp [touches])
            (touches_progressEvents hmem)
    · simp at hmem

/-- `_execute_block` on a block type outside the four dispatched stage
kinds: the final branch reports the unknown type and returns `False`. -/
theorem execute_block_unknown (cfg : BlockData)
    (h : cfg.block_type ∉ ["preprocessing", "optimization", "simulation", "analysis"]) :
    execute_block cfg =
      (false, [(cfg.block_id, "Starting " ++ cfg.block_type ++ " execution..."),
               (cfg.block_id, "Unknown block type: " ++ cfg.block_type)]) := by
  simp only [List.mem_cons, List.not_mem_nil, or_false, not_or] at h
  obtain ⟨h1, h2, h3, h4⟩ := h
  simp [execute_block, h1, h2, h3, h4]

/-! ## Claim theorems -/

/-- C1 (counterexample): on the two-block pipeline whose connections form
the directed cycle `A -> B -> A`, `_build_execution_order` does not fail
with any cycle report: it returns the ordered sequence `["A", "B"]`
covering every block id. -/
theorem C1_counterexample :
    Relation.TransGen (connRel cyc_conns) "A" "A" ∧
    build_execution_order ["A", "B"] cyc_conns = some ["A", "B"] := by
  constructor
  · exact Relation.TransGen.head
      ⟨{ source_id := "A", target_id := "B" }, by decide, rfl, rfl⟩
      (Relation.TransGen.single
        ⟨{ source_id := "B", target_id := "A" }, by decide, rfl, rfl⟩)
  · decide

/-- C1 (amended): `_build_execution_order` never reports a cycle.  For
every block set and connection list over existing block ids — cyclic or
not — it terminates within a recursion depth bounded by the block count
(every fuel of at least `blocks.length + 1` yields the same result) and
returns an ordered sequence containing every block id exactly once;
cycle detection is performed separately by `validate_pipeline`'s
`has_cycle` pass. -/
theorem C1_resolver_total_on_cycles (B : List String) (conns : List Conn)
    (hc : ∀ c ∈ conns, c.source_id ∈ B ∧ c.target_id ∈ B) :
    (∀ extra, build_execution_order_fuel (B.length + 1 + extra) B conns =
      build_execution_order B conns) ∧
    ∃ ord, build_execution_order B conns = some ord ∧ ord.Nodup ∧
      ∀ b, b ∈ ord ↔ b ∈ B :=
  ⟨build_execution_order_fuel_stable B conns hc,
   build_execution_order_complete B conns hc⟩

/-- Witness for C1: the amended theorem applied to the cyclic two-block
pipeline. -/
theorem C1_witness :
    (∀ c ∈ cyc_conns, c.source_id ∈ ["A", "B"] ∧ c.target_id ∈ ["A", "B"]) ∧
    ((∀ extra, build_execution_order_fuel (["A", "B"].length + 1 + extra)
        ["A", "B"] cyc_conns = build_execution_order ["A", "B"] cyc_conns) ∧
      ∃ ord, build_execution_order ["A", "B"] cyc_conns = some ord ∧ ord.Nodup ∧
        ∀ b, b ∈ ord ↔ b ∈ ["A", "B"]) :=
  ⟨by decide, C1_resolver_total_on_cycles ["A", "B"] cyc_conns (by decide)⟩

/-- C2: for every block set and acyclic connection list over existing
block ids, `_build_execution_order` returns a sequence containing every
block id exactly once in which each connection's source appears before
its target. -/
theorem C2_topological_order (B : List String) (conns : List Conn)
    (hc : ∀ c ∈ conns, c.source_id ∈ B ∧ c.target_id ∈ B)
    (hacyc : AcyclicConns conns) :
    ∃ ord, build_execution_order B conns = some ord ∧ ord.Nodup ∧
      (∀ b, b ∈ ord ↔ b ∈ B) ∧
      ∀ c ∈ conns, before ord c.source_id c.target_id :=
  build_execution_order_topo B conns hc hacyc

/-- Witness for C2: the theorem applied to blocks `{A, B}` with the
single connection `A -> B`. -/
theorem C2_witness :
    ((∀ c ∈ conns_AB, c.source_id ∈ ["A", "B"] ∧ c.target_id ∈ ["A", "B"]) ∧
      AcyclicConns conns_AB) ∧
    (∃ ord, build_execution_order ["A", "B"] conns_AB = some ord ∧ ord.Nodup ∧
      (∀ b, b ∈ ord ↔ b ∈ ["A", "B"]) ∧
      ∀ c ∈ conns_AB, before ord c.source_id c.target_id) :=
  ⟨⟨by decide, acyclic_single_conn "A" "B" (by decide)⟩,
   C2_topological_order ["A", "B"] conns_AB (by decide)
     (acyclic_single_conn "A" "B" (by decide))⟩

/-- C3 (counterexample): with blocks `{A: Input, B: Preprocessing}`,
connection `A -> B`, and a dispatch stub that succeeds for every kind,
the emitted sequence is not `RunStarted, BlockStarted(A),
BlockCompleted(A, true), BlockStarted(B), BlockCompleted(B, true),
RunCompleted(true)`: the engine has no `RunStarted` signal at all. -/
theorem C3_counterexample :
    (thread_run blocks_AB conns_AB stub_dispatch no_stop).map toSpecEvent ≠
      [SpecEvent.runStarted, SpecEvent.blockStarted "A",
       SpecEvent.blockCompleted "A" true, SpecEvent.blockStarted "B",
       SpecEvent.blockCompleted "B" true, SpecEvent.runCompleted true] := by
  decide

/-- C3 (amended): the same run emits exactly `BlockStarted(A),
BlockCompleted(A, true), BlockStarted(B), BlockCompleted(B, true),
RunCompleted(true)` in that order — the claimed sequence without the
`RunStarted` head, which the engine never emits. -/
theorem C3_exact_trace :
    thread_run blocks_AB conns_AB stub_dispatch no_stop =
      [Event.blockStarted "A", Event.blockCompleted "A" true,
       Event.blockStarted "B", Event.blockCompleted "B" true,
       Event.pipelineFinished true] := by decide

/-- C4: when the handler of block `b` returns failure (and the blocks
before it succeeded), no block after `b` in the execution order receives
a `block_started` event, the trace ends with
`block_completed(b, False)` followed by `pipeline_finished(False)`, and
every later block's status is still `'pending'` after the run's events
have been handled. -/
theorem C4_failfast_downstream (blocks : List (String × BlockData)) (conns : List Conn)
    (dispatch : BlockData → Bool × List (String × String))
    (done : List String) (b : String) (rest : List String) (cfgb : BlockData)
    (hc : ∀ c ∈ conns, c.source_id ∈ blocks.map Prod.fst ∧
      c.target_id ∈ blocks.map Prod.fst)
    (horder : build_execution_order (blocks.map Prod.fst) conns =
      some (done ++ b :: rest))
    (hdone : ∀ id ∈ done, ∃ cfg, blocks.lookup id = some cfg ∧ (dispatch cfg).1 = true)
    (hb : blocks.lookup b = some cfgb) (hfail : (dispatch cfgb).1 = false) :
    (∀ c ∈ rest, Event.blockStarted c ∉ thread_run blocks conns dispatch no_stop) ∧
    (∃ pre, thread_run blocks conns dispatch no_stop =
      pre ++ [Event.blockCompleted b false, Event.pipelineFinished false]) ∧
    (∀ c ∈ rest, statuses_after (blocks.map Prod.fst) (fun _ => "pending")
      (thread_run blocks conns dispatch no_stop) c = "pending") := by
  obtain ⟨hmain, hns, hst⟩ := thread_run_failfast blocks conns dispatch done b rest cfgb
    hc horder hdone hb hfail
  exact ⟨hns, ⟨_, hmain⟩, hst⟩

/-- Witness for C4: blocks `{A: Input, B: Preprocessing}` with `A -> B`
under the real dispatch; `A` fails (unknown type `input`), so `B` never
starts and stays `'pending'`. -/
theorem C4_witness :
    (build_execution_order (blocks_AB.map Prod.fst) conns_AB =
      some ([] ++ "A" :: ["B"]) ∧
     blocks_AB.lookup "A" = some blockA_input ∧
     (execute_block blockA_input).1 = false) ∧
    ((∀ c ∈ ["B"],
        Event.blockStarted c ∉ thread_run blocks_AB conns_AB execute_block no_stop) ∧
     (∃ pre, thread_run blocks_AB conns_AB execute_block no_stop =
        pre ++ [Event.blockCompleted "A" false, Event.pipelineFinished false]) ∧
     (∀ c ∈ ["B"], statuses_after (blocks_AB.map Prod.fst) (fun _ => "pending")
        (thread_run blocks_AB conns_AB execute_block no_stop) c = "pending")) :=
  ⟨⟨by decide, by decide, by decide⟩,
   C4_failfast_downstream blocks_AB conns_AB execute_block [] "A" ["B"]
     blockA_input
     (by decide) (by decide) (fun id hid => absurd hid (List.not_mem_nil id))
     (by decide) (by decide)⟩

set_option maxHeartbeats 1600000 in
/-- C5: a block of type `'input'` or `'output'` takes `_execute_block`'s
unknown-block-type branch and fails; any run whose execution order
reaches such a block (all earlier blocks succeeding) emits
`block_completed(id, False)` there and ends with
`pipeline_finished(False)`; and the pipelines built by
`create_full_pipeline` and `create_optimization_pipeline` begin with the
`'input'` block `input_1`, so their runs fail there immediately. -/
theorem C5_input_output_fail (cfg : BlockData)
    (hty : cfg.block_type = "input" ∨ cfg.block_type = "output") :
    (execute_block cfg).1 = false ∧
    (cfg.block_id, "Unknown block type: " ++ cfg.block_type) ∈ (execute_block cfg).2 ∧
    (∀ (blocks : List (String × BlockData)) (conns : List Conn) (done : List String)
      (b : String) (rest : List String) (cfgb : BlockData),
      (∀ c ∈ conns, c.source_id ∈ blocks.map Prod.fst ∧
        c.target_id ∈ blocks.map Prod.fst) →
      build_execution_order (blocks.map Prod.fst) conns = some (done ++ b :: rest) →
      (∀ id ∈ done, ∃ cfg', blocks.lookup id = some cfg' ∧
        (execute_block cfg').1 = true) →
      blocks.lookup b = some cfgb →
      (cfgb.block_type = "input" ∨ cfgb.block_type = "output") →
      Event.blockCompleted b false ∈ thread_run blocks conns execute_block no_stop ∧
      ∃ pre, thread_run blocks conns execute_block no_stop =
        pre ++ [Event.blockCompleted b false, Event.pipelineFinished false]) ∧
    (∀ subjects project_dir,
      thread_run (create_full_pipeline subjects project_dir).1
          (create_full_pipeline subjects project_dir).2 execute_block no_stop =
        [Event.blockStarted "input_1",
         Event.blockProgress "input_1" "Starting input execution...",
         Event.blockProgress "input_1" "Unknown block type: input",
         Event.blockCompleted "input_1" false,
         Event.pipelineFinished false]) ∧
    (∀ subjects project_dir,
      thread_run (create_optimization_pipeline subjects project_dir).1
          (create_optimization_pipeline subjects project_dir).2 execute_block no_stop =
        [Event.blockStarted "input_1",
         Event.blockProgress "input_1" "Starting input execution...",
         Event.blockProgress "input_1" "Unknown block type: input",
         Event.blockCompleted "input_1" false,
         Event.pipelineFinished false]) := by
  have hnot : ∀ cfg' : BlockData,
      cfg'.block_type = "input" ∨ cfg'.block_type = "output" →
      cfg'.block_type ∉ ["preprocessing", "optimization", "simulation", "analysis"] := by
    intro cfg' h
    rcases h with h | h <;> rw [h] <;> decide
  have hfail : ∀ cfg' : BlockData,
      cfg'.block_type = "input" ∨ cfg'.block_type = "output" →
      (execute_block cfg').1 = false := by
    intro cfg' h
    rw [execute_block_unknown cfg' (hnot cfg' h)]
  refine ⟨hfail cfg hty, ?_, ?_, ?_, ?_⟩
  · rw [execute_block_unknown cfg (hnot cfg hty)]
    simp
  · intro blocks conns done b rest cfgb hc horder hdone hb htyb
    obtain ⟨hmain, _, _⟩ := thread_run_failfast blocks conns execute_block done b rest
      cfgb hc horder hdone hb (hfail cfgb htyb)
    refine ⟨?_, ⟨_, hmain⟩⟩
    rw [hmain]
    simp
  · intro subjects project_dir
    rfl
  · intro subjects project_dir
    rfl

/-- Witness for C5: the theorem applied to the `output_1` block of the
full pipeline. -/
theorem C5_witness :
    (output_block.block_type = "input" ∨ output_block.block_type = "output") ∧
    (execute_block output_block).1 = false :=
  ⟨Or.inr rfl, (C5_input_output_fail output_block (Or.inr rfl)).1⟩

/-- C6 (counterexample): a snapshot block saved with status
`'completed'` is loaded with status `'completed'` — kept both in the
installed `current_pipeline` and in the rebuilt `BlockConfiguration` —
not reset to `'pending'`. -/
theorem C6_counterexample :
    (load_pipeline (save_pipeline c6_snapshot "p" "")).1.blocks.map
      (fun b => b.2.status) = [some "completed"] ∧
    (load_pipeline (save_pipeline c6_snapshot "p" "")).2.map
      (fun cfgs => cfgs.map (fun cfg => cfg.status)) = some ["completed"] ∧
    ("completed" : String) ≠ "pending" := by decide

/-- C6 (amended): serializing and deserializing reproduces the block and
connection set identically (ids, kinds, names, parameters, connections),
and every loaded block's status is the status stored in the snapshot —
defaulting to `'pending'` only when the snapshot has none — rather than
being reset to `'pending'`. -/
theorem C6_roundtrip (p : Pipeline) (ui_name ui_desc : String)
    (hvalid : ∀ b ∈ p.blocks, b.2.block_type ∈ block_type_values ∧
      b.2.status.getD "pending" ∈ execution_status_values) :
    (load_pipeline (save_pipeline p ui_name ui_desc)).1.blocks = p.blocks ∧
    (load_pipeline (save_pipeline p ui_name ui_desc)).1.connections = p.connections ∧
    (load_pipeline (save_pipeline p ui_name ui_desc)).2 =
      some (p.blocks.map (fun b =>
        { block_id := b.1, block_type := b.2.block_type, name := b.2.name,
          parameters := b.2.parameters, position := b.2.position,
          status := b.2.status.getD "pending" })) :=
  ⟨rfl, rfl, load_blocks_all_valid p.blocks hvalid⟩

/-- Witness for C6: the amended round-trip theorem applied to the
concrete snapshot with a `'completed'` block. -/
theorem C6_witness :
    (∀ b ∈ c6_snapshot.blocks, b.2.block_type ∈ block_type_values ∧
      b.2.status.getD "pending" ∈ execution_status_values) ∧
    ((load_pipeline (save_pipeline c6_snapshot "p" "")).1.blocks =
      c6_snapshot.blocks ∧
     (load_pipeline (save_pipeline c6_snapshot "p" "")).1.connections =
      c6_snapshot.connections ∧
     (load_pipeline (save_pipeline c6_snapshot "p" "")).2 =
      some (c6_snapshot.blocks.map (fun b =>
        { block_id := b.1, block_type := b.2.block_type, name := b.2.name,
          parameters := b.2.parameters, position := b.2.position,
          status := b.2.status.getD "pending" }))) :=
  ⟨by decide, C6_roundtrip c6_snapshot "p" "" (by decide)⟩

/-- C7: when cancellation is requested while block `b` executes (every
read of `should_stop` up to and including `b`'s loop check is `False`,
the next read is `True`, and the flag is only ever set), the started
blocks are exactly those up to `b`, no later block is ever started, and
`b`'s completion event is emitted immediately before
`pipeline_finished(False)`. -/
theorem C7_stop_midrun (blocks : List (String × BlockData)) (conns : List Conn)
    (dispatch : BlockData → Bool × List (String × String)) (stop : Nat → Bool)
    (done : List String) (b : String) (rest : List String) (cfgb : BlockData)
    (hc : ∀ c ∈ conns, c.source_id ∈ blocks.map Prod.fst ∧
      c.target_id ∈ blocks.map Prod.fst)
    (horder : build_execution_order (blocks.map Prod.fst) conns =
      some (done ++ b :: rest))
    (hdone : ∀ id ∈ done, ∃ cfg, blocks.lookup id = some cfg ∧ (dispatch cfg).1 = true)
    (hb : blocks.lookup b = some cfgb)
    (hstop_false : ∀ j, j ≤ done.length → stop j = false)
    (hstop_true : stop (done.length + 1) = true)
    (hmono : ∀ i, stop i = true → stop (i + 1) = true) :
    startedIds (thread_run blocks conns dispatch stop) = done ++ [b] ∧
    (∀ c ∈ rest, Event.blockStarted c ∉ thread_run blocks conns dispatch stop) ∧
    (∃ pre, thread_run blocks conns dispatch stop =
      pre ++ [Event.blockCompleted b (dispatch cfgb).1,
        Event.pipelineFinished false]) := by
  obtain ⟨hmain, hids, hns⟩ := thread_run_stopped blocks conns dispatch stop done b rest
    cfgb hc horder hdone hb hstop_false hstop_true hmono
  exact ⟨hids, hns, ⟨_, hmain⟩⟩

/-- Witness for C7: two preprocessing blocks `A -> B` with cancellation
requested while `A` runs: only `A` is started, `B` never starts, and
`A`'s (successful) completion precedes `pipeline_finished(False)`. -/
theorem C7_witness :
    (stop_after_first 0 = false ∧ stop_after_first 1 = true ∧
     build_execution_order (blocks_PP.map Prod.fst) conns_AB =
      some ([] ++ "A" :: ["B"]) ∧
     blocks_PP.lookup "A" = some blockA_pre) ∧
    (startedIds (thread_run blocks_PP conns_AB execute_block stop_after_first) =
      [] ++ ["A"] ∧
     (∀ c ∈ ["B"], Event.blockStarted c ∉
        thread_run blocks_PP conns_AB execute_block stop_after_first) ∧
     (∃ pre, thread_run blocks_PP conns_AB execute_block stop_after_first =
        pre ++ [Event.blockCompleted "A" (execute_block blockA_pre).1,
          Event.pipelineFinished false])) :=
  ⟨⟨by decide, by decide, by decide, by decide⟩,
   C7_stop_midrun blocks_PP conns_AB execute_block stop_after_first [] "A" ["B"]
     blockA_pre
     (by decide) (by decide) (fun id hid => absurd hid (List.not_mem_nil id))
     (by decide)
     (fun j hj => by
       have hj0 : j = 0 := Nat.le_zero.1 hj
       rw [hj0]; rfl)
     (by decide)
     (fun i h => by
       simp only [stop_after_first, decide_eq_true_eq] at h ⊢
       omega)⟩

/-- C8: calling `execute_pipeline` while a run is active returns `False`
immediately and leaves the executor unchanged — in particular no second
worker thread is created — and over any sequence of `execute_pipeline`
calls and run completions at most one worker is ever alive. -/
theorem C8_already_running (s : ExecutorState) (h : s.is_running = true) :
    execute_pipeline s = (s, false) ∧
    (execute_pipeline s).1.active_threads = s.active_threads ∧
    ∀ ops : List ExecOp, (run_ops ops).active_threads ≤ 1 := by
  have he : execute_pipeline s = (s, false) := by simp [execute_pipeline, h]
  exact ⟨he, by rw [he], run_ops_at_most_one⟩

/-- Witness for C8: the theorem applied to a running executor with one
live worker. -/
theorem C8_witness :
    (({ is_running := true, active_threads := 1 } : ExecutorState).is_running =
      true) ∧
    (execute_pipeline { is_running := true, active_threads := 1 } =
      ({ is_running := true, active_threads := 1 }, false) ∧
     (execute_pipeline { is_running := true, active_threads := 1 }).1.active_threads =
      ({ is_running := true, active_threads := 1 } : ExecutorState).active_threads ∧
     ∀ ops : List ExecOp, (run_ops ops).active_threads ≤ 1) :=
  ⟨rfl, C8_already_running { is_running := true, active_threads := 1 } rfl⟩

/-- C9: the validator reports both "Pipeline has no blocks" and
"Pipeline needs an input block" on the empty pipeline, and reports no
issues on a pipeline holding a single `input` block and no
connections. -/
theorem C9_validator_base_cases :
    "Pipeline has no blocks" ∈ validate_pipeline [] [] ∧
    "Pipeline needs an input block" ∈ validate_pipeline [] [] ∧
    validate_pipeline
      [("input_1", { block_id := "input_1", block_type := "input", name := "Input 1" })]
      [] = [] := by decide

/-- C10: for every block whose type is none of the four dispatched stage
kinds, `_execute_block` returns failure together with the explicit
`"Unknown block type: ..."` progress message; the dispatch is a total
function (the source wraps it in `try`/`except`), so no exception
escapes it. -/
theorem C10_unknown_type_failure (cfg : BlockData)
    (h : cfg.block_type ∉ ["preprocessing", "optimization", "simulation", "analysis"]) :
    execute_block cfg =
      (false, [(cfg.block_id, "Starting " ++ cfg.block_type ++ " execution..."),
               (cfg.block_id, "Unknown block type: " ++ cfg.block_type)]) :=
  execute_block_unknown cfg h

/-- Witness for C10: the theorem applied to a block of the custom type
`"custom"`. -/
theorem C10_witness :
    (("custom" : String) ∉ ["preprocessing", "optimization", "simulation", "analysis"]) ∧
    execute_block { block_id := "X", block_type := "custom", name := "X" } =
      (false, [("X", "Starting " ++ "custom" ++ " execution..."),
               ("X", "Unknown block type: " ++ "custom")]) :=
  ⟨by decide,
   C10_unknown_type_failure
     { block_id := "X", block_type := "custom", name := "X" } (by decide)⟩

end TIToolbox
